import Mathlib

/-!
# Line framing (`SerialPort::leerLinea`, POSIX branch) and frame decoding
(`TramaLoad::procesar`)

The serial descriptor is replaced by a script of `read(fd, &c, 1)` outcomes, consumed
one per loop iteration.  The caller's buffer is a list of characters; every store into it
is recorded, with its index, in a log.
-/

namespace SerialPort

/-- Outcome of one `read(fd, &c, 1)` call. -/
inductive Lectura where
  /-- `r > 0`: one byte was delivered in `c`. -/
  | byte (c : Char)
  /-- `r == 0`: nothing was delivered. -/
  | cero
  /-- `r < 0` with `errno` equal to `EAGAIN` or `EWOULDBLOCK`. -/
  | eagain
  /-- `r < 0` with any other `errno`. -/
  | error
  deriving DecidableEq, Repr

/-- The terminator character that fills and closes the buffer. -/
def NUL : Char := Char.ofNat 0

/-- The constant `MAX_TIMEOUTS` of `leerLinea`. -/
def MAX_TIMEOUTS : Int := 50

/-- Increment results of the `int` counter are taken in 32-bit two's complement. -/
def wrapInt (x : Int) : Int := (x + 2147483648) % 4294967296 - 2147483648

/-- Local variables of `leerLinea` together with the caller's buffer and the log of the
indices stored to. -/
structure Estado where
  buffer : List Char
  indice : Int
  finDeLinea : Bool
  timeoutsConsecutivos : Int
  escrituras : List Int
  deriving DecidableEq, Repr

/-- The store `buffer[i] = c`: the index is logged; a store outside the list changes
nothing in the list. -/
def escribir (e : Estado) (i : Int) (c : Char) : Estado :=
  { e with
    buffer := if 0 ≤ i then e.buffer.set i.toNat c else e.buffer
    escrituras := e.escrituras ++ [i] }

/-- The loop `for (int i = 0; i < bufferSize; i++) buffer[i] = 0`. -/
def limpiar (bufferSize : Int) (e : Estado) : Estado :=
  (List.range bufferSize.toNat).foldl (fun st (i : Nat) => escribir st (Int.ofNat i) NUL) e

/-- How one pass through the body of the `while` ends. -/
inductive Paso where
  /-- The pass reaches the loop test again (end of the body, or `continue`). -/
  | continuar (e : Estado)
  /-- The pass leaves the loop through `break`. -/
  | romper (e : Estado)
  deriving DecidableEq, Repr

/-- Body of the `while` loop of `leerLinea` for one outcome of `read`. -/
def cuerpo (e : Estado) : Lectura → Paso
  | .byte c =>
    let e1 := { e with timeoutsConsecutivos := 0 }
    if c = '\r' then .continuar e1
    else if c = '\n' then
      if e1.indice > 0 then .continuar { e1 with finDeLinea := true }
      else .continuar e1
    else .continuar { escribir e1 e1.indice c with indice := e1.indice + 1 }
  | .cero =>
    let e1 := { e with timeoutsConsecutivos := wrapInt (e.timeoutsConsecutivos + 1) }
    if e1.timeoutsConsecutivos ≥ MAX_TIMEOUTS then
      if e1.indice > 0 then .romper { e1 with finDeLinea := true }
      else .romper e1
    else .continuar e1
  | .eagain =>
    let e1 := { e with timeoutsConsecutivos := wrapInt (e.timeoutsConsecutivos + 1) }
    if e1.timeoutsConsecutivos ≥ MAX_TIMEOUTS ∧ e1.indice > 0 then
      .romper { e1 with finDeLinea := true }
    else .continuar e1
  | .error => .romper e

/-- The loop test `indice < bufferSize - 1 && !finDeLinea`. -/
def condicion (bufferSize : Int) (e : Estado) : Bool :=
  decide (e.indice < bufferSize - 1) && !e.finDeLinea

/-- Whether the loop is still asking for input or has been left. -/
inductive Fase where
  | leyendo
  | salio
  deriving DecidableEq, Repr

/-- Where the loop stands once the script has been fed to it. -/
structure Corrida where
  fase : Fase
  estado : Estado
  resto : List Lectura
  deriving DecidableEq, Repr

/-- The `while` loop of `leerLinea`, one `read` outcome per pass.  When the script ends
while the loop test still holds, the loop is left in phase `leyendo`. -/
def bucle (bufferSize : Int) (e : Estado) : List Lectura → Corrida
  | [] => if condicion bufferSize e then ⟨.leyendo, e, []⟩ else ⟨.salio, e, []⟩
  | r :: resto =>
    if condicion bufferSize e then
      match cuerpo e r with
      | .continuar e1 => bucle bufferSize e1 resto
      | .romper e1 => ⟨.salio, e1, resto⟩
    else ⟨.salio, e, r :: resto⟩

/-- What a call of `leerLinea` leaves behind: the returned flag, the buffer, the indices
stored to, and the `read` outcomes not consumed. -/
structure Resultado where
  ok : Bool
  buffer : List Char
  escrituras : List Int
  resto : List Lectura
  deriving DecidableEq, Repr

/-- State at the loop entry: buffer cleared, `indice = 0`, `finDeLinea = false`,
`timeoutsConsecutivos = 0`. -/
def inicial (buffer : List Char) (bufferSize : Int) : Estado :=
  limpiar bufferSize ⟨buffer, 0, false, 0, []⟩

/-- The statements after the loop: `buffer[indice] = 0; return (indice > 0);`. -/
def cerrar (e : Estado) (resto : List Lectura) : Resultado :=
  let e1 := escribir e e.indice NUL
  ⟨decide (e1.indice > 0), e1.buffer, e1.escrituras, resto⟩

/-- The POSIX branch of `SerialPort::leerLinea`.  `none`: the script ended while the loop
was still reading. -/
def leerLinea (conectado : Bool) (buffer : List Char) (bufferSize : Int)
    (fuente : List Lectura) : Option Resultado :=
  if !conectado then some ⟨false, buffer, [], fuente⟩
  else
    match bucle bufferSize (inicial buffer bufferSize) fuente with
    | ⟨.salio, e, resto⟩ => some (cerrar e resto)
    | ⟨.leyendo, _, _⟩ => none

/-- The C string held by a buffer: the characters before the first terminator. -/
def linea (buffer : List Char) : List Char := buffer.takeWhile (fun c => c != NUL)

/-- Script delivering the bytes of `s` one per `read`. -/
def bytes (s : List Char) : List Lectura := s.map Lectura.byte

/-- A `read` outcome that delivers no byte and is not a hard error. -/
def esTimeout : Lectura → Bool
  | .cero => true
  | .eagain => true
  | _ => false

/-- A byte that is stored: neither carriage return nor line feed. -/
def esContenido (c : Char) : Bool := c != '\r' && c != '\n'

/-- A buffer of `bufferSize` cells holding `s` followed by terminators only. -/
def lleno (bufferSize : Int) (s : List Char) : List Char :=
  s ++ List.replicate (bufferSize.toNat - s.length) NUL

/-- Indices stored to by the clearing loop. -/
def rango (bufferSize : Int) : List Int := (List.range bufferSize.toNat).map Int.ofNat

/-- Loop state in which the content `s` has been stored and the line is not finished. -/
def est (bufferSize : Int) (s : List Char) (t : Int) (w : List Int) : Estado :=
  ⟨lleno bufferSize s, s.length, false, t, w⟩

/-- Content bytes delivered by a script, in order. -/
def contenidoDe : List Lectura → List Char
  | [] => []
  | .byte c :: resto => if esContenido c then c :: contenidoDe resto else contenidoDe resto
  | _ :: resto => contenidoDe resto

/-- State in which the content `s` has been stored and the line is marked finished. -/
def estFin (bufferSize : Int) (s : List Char) (t : Int) (w : List Int) : Estado :=
  ⟨lleno bufferSize s, s.length, true, t, w⟩

/-- Value of the timeout counter after a script that keeps the loop reading. -/
def cuenta (t : Int) : List Lectura → Int
  | [] => t
  | .byte _ :: l => cuenta 0 l
  | .cero :: l => cuenta (wrapInt (t + 1)) l
  | .eagain :: l => cuenta (wrapInt (t + 1)) l
  | .error :: l => cuenta 0 l

/-- State carried by a pass result. -/
def Paso.estado : Paso → Estado
  | .continuar e => e
  | .romper e => e

/-- Bounds kept by every state of the loop: the buffer is the stored content followed by
terminators, `indice` is the length of the content and stays below `bufferSize`, and all
logged stores are inside the buffer. -/
def Acotado (n : Int) (e : Estado) : Prop :=
  ∃ s : List Char, e.buffer = lleno n s ∧ e.indice = (s.length : Int) ∧
    (s.length : Int) ≤ n - 1 ∧ ∀ i ∈ e.escrituras, 0 ≤ i ∧ i ≤ n - 1

end SerialPort

/-! ## Frame decoding: `TramaLoad::procesar` -/

/-- Modelled from the spec: `ListaDeCarga`, the Load Sequence, whose source file is not
available; an ordered, append-only container of decoded characters. -/
structure ListaDeCarga where
  elementos : List Char
  deriving DecidableEq, Repr

/-- Modelled from the spec: `ListaDeCarga::insertarAlFinal`, the `append(char)` of the
Load Sequence: the character is placed after all the earlier ones, which stay as they
are. -/
def ListaDeCarga.insertarAlFinal (carga : ListaDeCarga) (c : Char) : ListaDeCarga :=
  ⟨carga.elementos ++ [c]⟩

/-- Modelled from the spec: `RotorDeMapeo`, the substitution mapper, whose source file is
not available.  `getMapeo` gives the mapped character and the state the rotor is left in:
a rotating rotor advances, a stateless mapper gives back the state it was called in. -/
structure RotorDeMapeo (ρ : Type) where
  estado : ρ
  getMapeo : ρ → Char → Char × ρ

/-- A mapper whose `getMapeo` never changes its state. -/
def RotorDeMapeo.sinEstado {ρ : Type} (rotor : RotorDeMapeo ρ) : Prop :=
  ∀ r c, (rotor.getMapeo r c).2 = r

/-- The character a mapper gives for `c` in its current state. -/
def RotorDeMapeo.mapa {ρ : Type} (rotor : RotorDeMapeo ρ) (c : Char) : Char :=
  (rotor.getMapeo rotor.estado c).1

/-- The class `TramaLoad`: a frame holding its payload character `dato`. -/
structure TramaLoad where
  dato : Char
  deriving DecidableEq, Repr

/-- What `TramaLoad::procesar` leaves behind: the Load Sequence, the rotor, the characters
passed to `getMapeo`, and the text written to the console. -/
structure Efecto (ρ : Type) where
  carga : ListaDeCarga
  rotor : RotorDeMapeo ρ
  consultas : List Char
  consola : String

/-- The method `TramaLoad::procesar`: one `getMapeo` on `dato`, one `insertarAlFinal` of
the decoded character, one console line. -/
def TramaLoad.procesar {ρ : Type} (t : TramaLoad) (carga : ListaDeCarga)
    (rotor : RotorDeMapeo ρ) : Efecto ρ :=
  let r := rotor.getMapeo rotor.estado t.dato
  let decodificado := r.1
  let carga1 := carga.insertarAlFinal decodificado
  { carga := carga1
    rotor := { rotor with estado := r.2 }
    consultas := [t.dato]
    consola := "Trama recibida: [L," ++ String.singleton t.dato ++ "] -> Fragmento '" ++
      String.singleton t.dato ++ "' decodificado como '" ++ String.singleton decodificado ++
      "'.\n" }

/-- Frames processed one after the other, each on the Load Sequence and rotor left by the
one before; the result is the final Load Sequence and rotor. -/
def procesarTodas {ρ : Type} : List TramaLoad → ListaDeCarga → RotorDeMapeo ρ →
    ListaDeCarga × RotorDeMapeo ρ
  | [], carga, rotor => (carga, rotor)
  | t :: ts, carga, rotor =>
    procesarTodas ts (t.procesar carga rotor).carga (t.procesar carga rotor).rotor

/-- Modelled from the spec: the error `MalformedFrame` of the Frame Decoder. -/
inductive ErrorTrama where
  | MalformedFrame
  deriving DecidableEq, Repr

/-- Modelled from the spec: the tag grammar `L,<payload_char>` of a line; the code that
parses a line into a frame is not among the source files. -/
def payloadDe : List Char → Option Char
  | ['L', ',', c] => some c
  | _ => none

/-- Outcome of `process`: the error, if any, and what the call left behind. -/
structure Salida (ρ : Type) where
  error : Option ErrorTrama
  carga : ListaDeCarga
  rotor : RotorDeMapeo ρ
  consultas : List Char

/-- Modelled from the spec: `process(line, mapper, sink)` of the Frame Decoder, whose
line-parsing code is not among the source files.  A line matching the tag grammar is
decoded by `TramaLoad::procesar`; any other line is rejected with `MalformedFrame`, the
mapper is not called and the sink is not changed. -/
def process {ρ : Type} (line : List Char) (mapper : RotorDeMapeo ρ) (sink : ListaDeCarga) :
    Salida ρ :=
  match payloadDe line with
  | some c =>
    let ef := (TramaLoad.mk c).procesar sink mapper
    ⟨none, ef.carga, ef.rotor, ef.consultas⟩
  | none => ⟨some .MalformedFrame, sink, mapper, []⟩

/-- A stateless mapper sending `a` to `n` and `b` to `o`. -/
def rotorEjemplo : RotorDeMapeo Unit :=
  ⟨(), fun _ c => (if c = 'a' then 'n' else if c = 'b' then 'o' else c, ())⟩

/-! ## Properties of the line-framing loop -/

namespace SerialPort

theorem limpiar_aux (k : Nat) (e : Estado) (hk : k ≤ e.buffer.length) :
    (List.range k).foldl (fun st (i : Nat) => escribir st (Int.ofNat i) NUL) e =
      { e with
        buffer := List.replicate k NUL ++ e.buffer.drop k
        escrituras := e.escrituras ++ (List.range k).map Int.ofNat } := by
  induction k with
  | zero => simp
  | succ k ih =>
    rw [List.range_succ, List.foldl_append, ih (by omega)]
    simp only [List.foldl_cons, List.foldl_nil, escribir, List.map_append, List.map_cons,
      List.map_nil, List.append_assoc]
    have h0 : (0 : Int) ≤ Int.ofNat k := Int.ofNat_nonneg k
    have h1 : (Int.ofNat k).toNat = k := rfl
    simp only [h0, if_true, h1]
    congr 1
    · rw [List.set_append_right _ _ (by simp)]
      simp only [List.length_replicate, Nat.sub_self]
      rw [List.replicate_succ', List.append_assoc]
      congr 1
      have hlt : k < e.buffer.length := by omega
      rw [List.drop_eq_getElem_cons hlt, List.set_cons_zero]
      rfl

theorem inicial_eq (buffer : List Char) (bufferSize : Int)
    (hlen : buffer.length = bufferSize.toNat) :
    inicial buffer bufferSize = est bufferSize [] 0 (rango bufferSize) := by
  unfold inicial limpiar
  rw [limpiar_aux _ _ (by simp [hlen])]
  simp [est, lleno, rango, ← hlen]


theorem lleno_length (n : Int) (s : List Char) (h : (s.length : Int) ≤ n) :
    (lleno n s).length = n.toNat := by
  simp only [lleno, List.length_append, List.length_replicate]
  omega

theorem lleno_set_nul (n : Int) (s : List Char) (h : (s.length : Int) < n) :
    (lleno n s).set s.length NUL = lleno n s := by
  unfold lleno
  rw [List.set_append_right _ _ (le_refl _), Nat.sub_self]
  obtain ⟨m, hm⟩ : ∃ m, n.toNat - s.length = m + 1 := ⟨n.toNat - s.length - 1, by omega⟩
  rw [hm, List.replicate_succ, List.set_cons_zero]

theorem lleno_set_contenido (n : Int) (s : List Char) (c : Char) (h : (s.length : Int) < n) :
    (lleno n s).set s.length c = lleno n (s ++ [c]) := by
  unfold lleno
  rw [List.set_append_right _ _ (le_refl _), Nat.sub_self]
  obtain ⟨m, hm⟩ : ∃ m, n.toNat - s.length = m + 1 := ⟨n.toNat - s.length - 1, by omega⟩
  have hm2 : n.toNat - (s ++ [c]).length = m := by
    simp only [List.length_append, List.length_singleton]; omega
  rw [hm, hm2, List.replicate_succ, List.set_cons_zero, List.append_assoc]
  rfl

theorem bucle_sin_condicion (n : Int) (e : Estado) (l : List Lectura)
    (h : condicion n e = false) : bucle n e l = ⟨.salio, e, l⟩ := by
  cases l <;> simp [bucle, h]

theorem bucle_cons (n : Int) (e : Estado) (r : Lectura) (l : List Lectura)
    (h : condicion n e = true) :
    bucle n e (r :: l) =
      match cuerpo e r with
      | .continuar e1 => bucle n e1 l
      | .romper e1 => ⟨.salio, e1, l⟩ := by
  simp [bucle, h]

theorem bucle_append (n : Int) (e : Estado) (pre rest : List Lectura) :
    bucle n e (pre ++ rest) =
      match bucle n e pre with
      | ⟨.leyendo, e1, _⟩ => bucle n e1 rest
      | ⟨.salio, e1, r⟩ => ⟨.salio, e1, r ++ rest⟩ := by
  induction pre generalizing e with
  | nil =>
    cases hc : condicion n e
    · simp [bucle, hc, bucle_sin_condicion n e rest hc]
    · simp [bucle, hc]
  | cons x xs ih =>
    cases hc : condicion n e
    · rw [bucle_sin_condicion n e _ hc, bucle_sin_condicion n e _ hc]
    · rw [List.cons_append, bucle_cons n e x _ hc, bucle_cons n e x _ hc]
      cases cuerpo e x with
      | continuar e1 => exact ih e1
      | romper e1 => rfl

theorem condicion_est (n : Int) (s : List Char) (t : Int) (w : List Int) :
    condicion n (est n s t w) = decide ((s.length : Int) < n - 1) := by
  simp [condicion, est]

theorem condicion_estFin (n : Int) (s : List Char) (t : Int) (w : List Int) :
    condicion n (estFin n s t w) = false := by
  simp [condicion, estFin]

theorem cuerpo_cr (n : Int) (s : List Char) (t : Int) (w : List Int) :
    cuerpo (est n s t w) (.byte '\r') = .continuar (est n s 0 w) := by
  simp [cuerpo, est]

theorem cuerpo_lf (n : Int) (s : List Char) (t : Int) (w : List Int) :
    cuerpo (est n s t w) (.byte '\n') =
      .continuar (if s = [] then est n s 0 w else estFin n s 0 w) := by
  cases s with
  | nil => simp [cuerpo, est]
  | cons a l =>
    have : (0 : Int) < (l.length : Int) + 1 := by omega
    simp [cuerpo, est, estFin, this]

theorem cuerpo_contenido (n : Int) (s : List Char) (t : Int) (w : List Int) (c : Char)
    (hc : esContenido c = true) (h : (s.length : Int) < n) :
    cuerpo (est n s t w) (.byte c) = .continuar (est n (s ++ [c]) 0 (w ++ [(s.length : Int)])) := by
  simp only [esContenido, Bool.and_eq_true, bne_iff_ne, ne_eq] at hc
  have h0 : (0 : Int) ≤ (s.length : Int) := Int.ofNat_nonneg _
  simp [cuerpo, est, escribir, hc.1, hc.2, h0, lleno_set_contenido n s c h]

theorem cerrar_est (n : Int) (s : List Char) (b : Bool) (t : Int) (w : List Int)
    (resto : List Lectura) (h : (s.length : Int) < n) :
    cerrar ⟨lleno n s, s.length, b, t, w⟩ resto =
      ⟨decide (s ≠ []), lleno n s, w ++ [(s.length : Int)], resto⟩ := by
  have h0 : (0 : Int) ≤ (s.length : Int) := Int.ofNat_nonneg _
  simp only [cerrar, escribir, h0, if_true, Int.toNat_ofNat, lleno_set_nul n s h]
  congr 1
  cases s <;> simp

theorem wrapInt_chico (x : Int) (h0 : -2147483648 ≤ x) (h1 : x < 2147483648) :
    wrapInt x = x := by
  unfold wrapInt; omega

theorem cuerpo_timeout_menor (n : Int) (s : List Char) (t : Int) (w : List Int) (x : Lectura)
    (hx : esTimeout x = true) (h0 : 0 ≤ t) (h1 : t + 1 < 50) :
    cuerpo (est n s t w) x = .continuar (est n s (t + 1) w) := by
  have hw : wrapInt (t + 1) = t + 1 := wrapInt_chico _ (by omega) (by omega)
  have hlt : ¬ (50 : Int) ≤ t + 1 := by omega
  cases x <;> simp [esTimeout] at hx <;> simp [cuerpo, est, hw, MAX_TIMEOUTS, hlt]

theorem cuerpo_timeout_limite (n : Int) (s : List Char) (w : List Int) (x : Lectura)
    (hx : esTimeout x = true) (hs : s ≠ []) :
    cuerpo (est n s 49 w) x = .romper (estFin n s 50 w) := by
  have hw : wrapInt 50 = 50 := by decide
  have hpos : (0 : Int) < (s.length : Int) := by
    cases s with
    | nil => exact absurd rfl hs
    | cons a l => simp only [List.length_cons, Nat.cast_add, Nat.cast_one]; omega
  cases x <;> simp [esTimeout] at hx <;> simp [cuerpo, est, estFin, hw, MAX_TIMEOUTS, hpos]

theorem cuerpo_cero_limite_vacio (n : Int) (w : List Int) :
    cuerpo (est n [] 49 w) .cero = .romper (est n [] 50 w) := by
  have hw : wrapInt 50 = 50 := by decide
  simp [cuerpo, est, hw, MAX_TIMEOUTS]

theorem cuerpo_eagain_vacio (n : Int) (t : Int) (w : List Int) :
    cuerpo (est n [] t w) .eagain = .continuar (est n [] (wrapInt (t + 1)) w) := by
  simp [cuerpo, est]

theorem bucle_timeouts (n : Int) (s : List Char) (w : List Int) (hs : (s.length : Int) < n - 1)
    (ts rest : List Lectura) (hts : ∀ x ∈ ts, esTimeout x = true) (t : Int) (h0 : 0 ≤ t)
    (h1 : t + ts.length < 50) :
    bucle n (est n s t w) (ts ++ rest) = bucle n (est n s (t + ts.length) w) rest := by
  induction ts generalizing t with
  | nil => simp
  | cons x xs ih =>
    have hc : condicion n (est n s t w) = true := by simp [condicion_est, hs]
    simp only [List.length_cons, Nat.cast_add, Nat.cast_one] at h1
    rw [List.cons_append, bucle_cons n _ x _ hc,
      cuerpo_timeout_menor n s t w x (hts x (List.mem_cons_self _ _)) h0 (by omega)]
    simp only
    rw [ih (fun y hy => hts y (List.mem_cons_of_mem _ hy)) (t + 1) (by omega) (by omega)]
    simp only [List.length_cons, Nat.cast_add, Nat.cast_one]
    congr 2
    omega

theorem bucle_eagain_vacio (n : Int) (hn : 2 ≤ n) (k : Nat) (t : Int) (w : List Int) :
    ∃ t1, bucle n (est n [] t w) (List.replicate k .eagain) = ⟨.leyendo, est n [] t1 w, []⟩ := by
  have hc : ∀ u, condicion n (est n [] u w) = true := by
    intro u; simp [condicion_est]; omega
  induction k generalizing t with
  | zero => exact ⟨t, by simp [bucle, hc]⟩
  | succ k ih =>
    obtain ⟨t1, h⟩ := ih (wrapInt (t + 1))
    refine ⟨t1, ?_⟩
    rw [List.replicate_succ, bucle_cons n _ _ _ (hc t), cuerpo_eagain_vacio]
    exact h


theorem esContenido_iff (c : Char) : esContenido c = true ↔ c ≠ '\r' ∧ c ≠ '\n' := by
  simp [esContenido]


theorem bucle_contenidos (n : Int) (cs : List Char) (rest : List Lectura)
    (hcs : ∀ c ∈ cs, esContenido c = true) (s : List Char) (t : Int) (w : List Int)
    (h : (s.length : Int) + cs.length ≤ n - 1) :
    ∃ w1, bucle n (est n s t w) (bytes cs ++ rest) =
      bucle n (est n (s ++ cs) (if cs = [] then t else 0) w1) rest := by
  induction cs generalizing s t w with
  | nil => exact ⟨w, by simp [bytes]⟩
  | cons c cs ih =>
    simp only [List.length_cons, Nat.cast_add, Nat.cast_one] at h
    have hc : condicion n (est n s t w) = true := by
      simp only [condicion_est, decide_eq_true_eq]; omega
    obtain ⟨w1, hw1⟩ := ih (fun d hd => hcs d (List.mem_cons_of_mem _ hd)) (s ++ [c]) 0
      (w ++ [(s.length : Int)]) (by simp only [List.length_append, List.length_singleton,
        Nat.cast_add, Nat.cast_one]; omega)
    refine ⟨w1, ?_⟩
    have hb : bytes (c :: cs) ++ rest = .byte c :: (bytes cs ++ rest) := rfl
    rw [hb, bucle_cons n _ _ _ hc,
      cuerpo_contenido n s t w c (hcs c (List.mem_cons_self _ _)) (by omega)]
    simp only
    rw [hw1]
    simp

theorem cuerpo_timeout_forma (n : Int) (s : List Char) (t : Int) (w : List Int) (x : Lectura)
    (hx : esTimeout x = true) :
    cuerpo (est n s t w) x = .continuar (est n s (wrapInt (t + 1)) w) ∨
      ((50 : Int) ≤ wrapInt (t + 1) ∧ ∃ e1, cuerpo (est n s t w) x = .romper e1) := by
  cases x <;> simp [esTimeout] at hx
  · by_cases h : (50 : Int) ≤ wrapInt (t + 1)
    · right
      refine ⟨h, ?_⟩
      simp only [cuerpo, est, MAX_TIMEOUTS, ge_iff_le, h, if_true]
      split <;> exact ⟨_, rfl⟩
    · left
      simp [cuerpo, est, MAX_TIMEOUTS, h]
  · by_cases h : (50 : Int) ≤ wrapInt (t + 1) ∧ (0 : Int) < (s.length : Int)
    · right
      refine ⟨h.1, ?_⟩
      simp only [cuerpo, est, MAX_TIMEOUTS, ge_iff_le, gt_iff_lt, h, and_self, if_true]
      exact ⟨_, rfl⟩
    · left
      simp only [cuerpo, est, MAX_TIMEOUTS, ge_iff_le, gt_iff_lt, h, if_false]

/-- While the loop keeps reading, the buffer holds exactly the content bytes delivered so
far and the counter is the one computed by `cuenta`. -/
theorem bucle_leyendo (n : Int) (pre : List Lectura) (s : List Char) (t : Int) (w : List Int)
    (h : (bucle n (est n s t w) pre).fase = .leyendo) :
    ((s ++ contenidoDe pre).length : Int) < n - 1 ∧
    ∃ w1, bucle n (est n s t w) pre =
      ⟨.leyendo, est n (s ++ contenidoDe pre) (cuenta t pre) w1, []⟩ := by
  induction pre generalizing s t w with
  | nil =>
    cases hc : condicion n (est n s t w)
    · simp [bucle, hc] at h
    · rw [condicion_est, decide_eq_true_eq] at hc
      refine ⟨by simpa [contenidoDe] using hc, w, ?_⟩
      simp [bucle, condicion_est, hc, contenidoDe, cuenta]
  | cons x xs ih =>
    cases hc : condicion n (est n s t w)
    · rw [bucle_sin_condicion n _ _ hc] at h
      simp at h
    · have hlt : (s.length : Int) < n - 1 := by
        rw [condicion_est, decide_eq_true_eq] at hc; exact hc
      rw [bucle_cons n _ _ _ hc] at h ⊢
      cases x with
      | byte c =>
        by_cases hcr : c = '\r'
        · subst hcr
          rw [cuerpo_cr] at h ⊢
          simp only at h ⊢
          have := ih s 0 w h
          simpa [contenidoDe, cuenta, esContenido] using this
        · by_cases hlf : c = '\n'
          · subst hlf
            rw [cuerpo_lf] at h ⊢
            simp only at h ⊢
            by_cases hs : s = []
            · simp only [hs, if_true] at h ⊢
              have := ih [] 0 w h
              simpa [contenidoDe, cuenta, esContenido] using this
            · simp only [hs, if_false] at h
              rw [bucle_sin_condicion n _ _ (condicion_estFin n s 0 w)] at h
              simp at h
          · have hcont : esContenido c = true := (esContenido_iff c).2 ⟨hcr, hlf⟩
            rw [cuerpo_contenido n s t w c hcont (by omega)] at h ⊢
            simp only at h ⊢
            have := ih (s ++ [c]) 0 _ h
            simpa [contenidoDe, cuenta, hcont] using this
      | cero =>
        rcases cuerpo_timeout_forma n s t w .cero rfl with h1 | ⟨_, e1, h1⟩
        · rw [h1] at h ⊢
          simp only at h ⊢
          have := ih s _ w h
          simpa [contenidoDe, cuenta] using this
        · rw [h1] at h
          simp at h
      | eagain =>
        rcases cuerpo_timeout_forma n s t w .eagain rfl with h1 | ⟨_, e1, h1⟩
        · rw [h1] at h ⊢
          simp only at h ⊢
          have := ih s _ w h
          simpa [contenidoDe, cuenta] using this
        · rw [h1] at h
          simp at h
      | error =>
        simp [cuerpo] at h


theorem linea_replicate (k : Nat) : linea (List.replicate k NUL) = [] := by
  cases k <;> simp [linea, List.replicate_succ]

theorem linea_append_le (s : List Char) (k : Nat) :
    (linea (s ++ List.replicate k NUL)).length ≤ s.length := by
  induction s with
  | nil => simp [linea_replicate]
  | cons a l ih =>
    unfold linea at ih ⊢
    rw [List.cons_append, List.takeWhile_cons]
    split
    · simpa using ih
    · simp

theorem linea_lleno_le (n : Int) (s : List Char) : (linea (lleno n s)).length ≤ s.length :=
  linea_append_le s _

theorem linea_lleno (n : Int) (s : List Char) (h : ∀ c ∈ s, c ≠ NUL) :
    linea (lleno n s) = s := by
  unfold lleno
  generalize n.toNat - s.length = k
  induction s with
  | nil => simp [linea_replicate]
  | cons a l ih =>
    have ha : (a != NUL) = true := by simpa using h a (List.mem_cons_self _ _)
    have := ih (fun c hc => h c (List.mem_cons_of_mem _ hc))
    unfold linea at this ⊢
    rw [List.cons_append, List.takeWhile_cons, ha]
    simp [this]

theorem cuerpo_no_byte (e : Estado) (x : Lectura) (hx : ∀ c, x ≠ .byte c) :
    (cuerpo e x).estado.buffer = e.buffer ∧ (cuerpo e x).estado.indice = e.indice ∧
      (cuerpo e x).estado.escrituras = e.escrituras := by
  cases x with
  | byte c => exact absurd rfl (hx c)
  | cero => simp only [cuerpo]; split <;> [split; skip] <;> simp [Paso.estado]
  | eagain => simp only [cuerpo]; split <;> simp [Paso.estado]
  | error => simp [cuerpo, Paso.estado]

theorem acotado_est (n : Int) (s : List Char) (b : Bool) (t : Int) (w : List Int)
    (hs : (s.length : Int) ≤ n - 1) (hw : ∀ i ∈ w, 0 ≤ i ∧ i ≤ n - 1) :
    Acotado n ⟨lleno n s, s.length, b, t, w⟩ :=
  ⟨s, rfl, rfl, hs, hw⟩

theorem cuerpo_acotado (n : Int) (e : Estado) (x : Lectura) (ha : Acotado n e)
    (hc : condicion n e = true) : Acotado n (cuerpo e x).estado := by
  obtain ⟨s, hb, hi, hs, hw⟩ := ha
  obtain ⟨buf, ind, fin, t, w⟩ := e
  simp only at hb hi hw
  subst hb hi
  simp only [condicion, Bool.and_eq_true, decide_eq_true_eq, Bool.not_eq_true'] at hc
  obtain ⟨hlt, hfin⟩ := hc
  subst hfin
  by_cases hx : ∀ c, x ≠ .byte c
  · obtain ⟨h1, h2, h3⟩ := cuerpo_no_byte ⟨lleno n s, s.length, false, t, w⟩ x hx
    exact ⟨s, h1, h2, hs, by rw [h3]; exact hw⟩
  · push_neg at hx
    obtain ⟨c, rfl⟩ := hx
    change Acotado n (cuerpo (est n s t w) (.byte c)).estado
    by_cases hcr : c = '\r'
    · subst hcr
      rw [cuerpo_cr]
      exact acotado_est n s false 0 w hs hw
    · by_cases hlf : c = '\n'
      · subst hlf
        rw [cuerpo_lf]
        split
        · exact acotado_est n s false 0 w hs hw
        · exact acotado_est n s true 0 w hs hw
      · rw [cuerpo_contenido n s t w c ((esContenido_iff c).2 ⟨hcr, hlf⟩) (by omega)]
        refine acotado_est n (s ++ [c]) false 0 _ ?_ ?_
        · simp only [List.length_append, List.length_singleton, Nat.cast_add, Nat.cast_one]
          omega
        · intro i hi
          rcases List.mem_append.1 hi with h | h
          · exact hw i h
          · simp only [List.mem_singleton] at h
            subst h
            omega

theorem bucle_acotado (n : Int) (l : List Lectura) (e : Estado) (ha : Acotado n e) :
    Acotado n (bucle n e l).estado := by
  induction l generalizing e with
  | nil => unfold bucle; split <;> exact ha
  | cons x xs ih =>
    cases hc : condicion n e
    · rw [bucle_sin_condicion n e _ hc]; exact ha
    · rw [bucle_cons n e x xs hc]
      have h1 := cuerpo_acotado n e x ha hc
      cases hp : cuerpo e x with
      | continuar e1 => rw [hp] at h1; exact ih e1 h1
      | romper e1 => rw [hp] at h1; exact h1

theorem rango_mem (n : Int) (i : Int) (hi : i ∈ rango n) : 0 ≤ i ∧ i ≤ n - 1 := by
  simp only [rango, List.mem_map, List.mem_range] at hi
  obtain ⟨k, hk, rfl⟩ := hi
  have : Int.ofNat k = (k : Int) := rfl
  omega

theorem inicial_acotado (buffer : List Char) (n : Int) (hn : 1 ≤ n)
    (hlen : buffer.length = n.toNat) : Acotado n (inicial buffer n) := by
  rw [inicial_eq buffer n hlen]
  exact acotado_est n [] false 0 _ (by simp only [List.length_nil, Nat.cast_zero]; omega)
    (rango_mem n)

theorem cerrar_acotado (n : Int) (e : Estado) (resto : List Lectura) (ha : Acotado n e) :
    ∃ s : List Char, (s.length : Int) ≤ n - 1 ∧
      cerrar e resto = ⟨decide (s ≠ []), lleno n s, e.escrituras ++ [(s.length : Int)], resto⟩ := by
  obtain ⟨s, hb, hi, hs, _⟩ := ha
  obtain ⟨buf, ind, fin, t, w⟩ := e
  simp only at hb hi
  subst hb hi
  exact ⟨s, hs, cerrar_est n s fin t w resto (by omega)⟩


theorem cuerpo_descartado (e : Estado) (c : Char) (ht : e.timeoutsConsecutivos = 0)
    (hc : c = '\r' ∨ (c = '\n' ∧ e.indice ≤ 0)) : cuerpo e (.byte c) = .continuar e := by
  obtain ⟨buf, ind, fin, t, w⟩ := e
  simp only at ht hc
  subst ht
  rcases hc with rfl | ⟨rfl, hi⟩
  · simp [cuerpo]
  · have : ¬ (0 < ind) := by omega
    simp [cuerpo, this]

theorem bucle_descartados (n : Int) (e : Estado) (hcond : condicion n e = true)
    (ht : e.timeoutsConsecutivos = 0) (p : List Char)
    (hp : ∀ c ∈ p, c = '\r' ∨ (c = '\n' ∧ e.indice ≤ 0)) (l : List Lectura) :
    bucle n e (bytes p ++ l) = bucle n e l := by
  induction p with
  | nil => rfl
  | cons c cs ih =>
    have hb : bytes (c :: cs) ++ l = .byte c :: (bytes cs ++ l) := rfl
    rw [hb, bucle_cons n e _ _ hcond, cuerpo_descartado e c ht (hp c (List.mem_cons_self _ _))]
    exact ih (fun d hd => hp d (List.mem_cons_of_mem _ hd))

theorem leerLinea_de_bucle (buffer : List Char) (n : Int) (hlen : buffer.length = n.toNat)
    (fuente resto : List Lectura) (s : List Char) (b : Bool) (t : Int) (w : List Int)
    (hs : (s.length : Int) < n)
    (h : bucle n (est n [] 0 (rango n)) fuente = ⟨.salio, ⟨lleno n s, s.length, b, t, w⟩, resto⟩) :
    leerLinea true buffer n fuente =
      some ⟨decide (s ≠ []), lleno n s, w ++ [(s.length : Int)], resto⟩ := by
  simp only [leerLinea, Bool.not_true, Bool.false_eq_true, if_false]
  rw [inicial_eq buffer n hlen, h]
  simp only [cerrar_est n s b t w resto hs]

theorem leerLinea_leyendo (buffer : List Char) (n : Int) (fuente : List Lectura)
    (h : (bucle n (inicial buffer n) fuente).fase = .leyendo) :
    leerLinea true buffer n fuente = none := by
  simp only [leerLinea, Bool.not_true, Bool.false_eq_true, if_false]
  generalize bucle n (inicial buffer n) fuente = c at h
  obtain ⟨fase, e, resto⟩ := c
  simp only at h
  subst h
  rfl

theorem bucle_linea (n : Int) (p s q : List Char) (rest : List Lectura) (w : List Int)
    (hp : ∀ c ∈ p, c = '\r' ∨ c = '\n') (hq : ∀ c ∈ q, c = '\r') (hs : s ≠ [])
    (hcs : ∀ c ∈ s, esContenido c = true) (hl : (s.length : Int) ≤ n - 1) :
    ∃ b w1 resto,
      bucle n (est n [] 0 w) (bytes p ++ (bytes s ++ (bytes q ++ .byte '\n' :: rest))) =
        ⟨.salio, ⟨lleno n s, s.length, b, 0, w1⟩, resto⟩ ∧
      (resto = rest ∨ resto = bytes q ++ .byte '\n' :: rest) := by
  have hpos : (0 : Int) < (s.length : Int) := by
    cases s with
    | nil => exact absurd rfl hs
    | cons a l => simp only [List.length_cons, Nat.cast_add, Nat.cast_one]; omega
  have hc0 : condicion n (est n [] 0 w) = true := by
    simp only [condicion_est, List.length_nil, Nat.cast_zero, decide_eq_true_eq]; omega
  rw [bucle_descartados n _ hc0 rfl p
    (fun c hc => (hp c hc).imp id (fun h => ⟨h, le_refl _⟩))]
  obtain ⟨w1, hw1⟩ := bucle_contenidos n s (bytes q ++ .byte '\n' :: rest) hcs [] 0 w
    (by simpa using hl)
  rw [hw1]
  simp only [List.nil_append, hs, if_false]
  by_cases hfull : (s.length : Int) < n - 1
  · have hc1 : condicion n (est n s 0 w1) = true := by
      simp only [condicion_est, decide_eq_true_eq]; exact hfull
    rw [bucle_descartados n _ hc1 rfl q (fun c hc => Or.inl (hq c hc)),
      bucle_cons n _ _ _ hc1, cuerpo_lf]
    simp only [hs, if_false]
    rw [bucle_sin_condicion n _ _ (condicion_estFin n s 0 w1)]
    exact ⟨true, w1, rest, rfl, Or.inl rfl⟩
  · have hc1 : condicion n (est n s 0 w1) = false := by
      simp only [condicion_est, decide_eq_false_iff_not]; exact hfull
    rw [bucle_sin_condicion n _ _ hc1]
    exact ⟨false, w1, _, rfl, Or.inr rfl⟩

theorem leerLinea_linea (buffer : List Char) (n : Int) (hlen : buffer.length = n.toNat)
    (p s q : List Char) (rest : List Lectura)
    (hp : ∀ c ∈ p, c = '\r' ∨ c = '\n') (hq : ∀ c ∈ q, c = '\r') (hs : s ≠ [])
    (hcs : ∀ c ∈ s, esContenido c = true) (hl : (s.length : Int) ≤ n - 1) :
    ∃ r, leerLinea true buffer n (bytes p ++ (bytes s ++ (bytes q ++ .byte '\n' :: rest))) =
        some r ∧ r.ok = true ∧ r.buffer = lleno n s ∧
      (r.resto = rest ∨ r.resto = bytes q ++ .byte '\n' :: rest) := by
  obtain ⟨b, w1, resto, hb, hr⟩ := bucle_linea n p s q rest (rango n) hp hq hs hcs hl
  exact ⟨_, leerLinea_de_bucle buffer n hlen _ resto s b 0 w1 (by omega) hb,
    by simp [hs], rfl, hr⟩


theorem cuenta_append_byte (pre : List Lectura) (c : Char) (t : Int) :
    cuenta t (pre ++ [.byte c]) = 0 := by
  induction pre generalizing t with
  | nil => rfl
  | cons x xs ih => cases x <;> simp [cuenta, ih]

theorem bucle_sigue (n : Int) (e e1 : Estado) (pre l : List Lectura)
    (h : bucle n e pre = ⟨.leyendo, e1, []⟩) : bucle n e (pre ++ l) = bucle n e1 l := by
  rw [bucle_append, h]

theorem bucle_est_nil (n : Int) (s : List Char) (t : Int) (w : List Int)
    (hs : (s.length : Int) < n - 1) :
    bucle n (est n s t w) [] = ⟨.leyendo, est n s t w, []⟩ := by
  simp [bucle, condicion_est, hs]

/-- From a reading state with content `s` and counter `0`, fewer than fifty timeouts keep
the loop reading and the fiftieth leaves it with the line marked finished. -/
theorem bucle_cincuenta (n : Int) (s : List Char) (w : List Int) (hs : s ≠ [])
    (hl : (s.length : Int) < n - 1) (ts rest : List Lectura) (hts : ts.length = 50)
    (hto : ∀ x ∈ ts, esTimeout x = true) :
    bucle n (est n s 0 w) (ts ++ rest) = ⟨.salio, estFin n s 50 w, rest⟩ ∧
    ∀ k, k < 50 → bucle n (est n s 0 w) (ts.take k) = ⟨.leyendo, est n s k w, []⟩ := by
  constructor
  · have hne : ts ≠ [] := by intro h; rw [h] at hts; simp at hts
    have hdec := List.dropLast_append_getLast hne
    have hlen0 : ts.dropLast.length = 49 := by simp [hts]
    have hto0 : ∀ x ∈ ts.dropLast, esTimeout x = true :=
      fun x hx => hto x (List.dropLast_subset ts hx)
    rw [← hdec, List.append_assoc,
      bucle_timeouts n s w hl ts.dropLast _ hto0 0 (le_refl _) (by rw [hlen0]; decide),
      hlen0]
    have hc : condicion n (est n s (0 + (49 : Nat)) w) = true := by
      simp only [condicion_est, decide_eq_true_eq]; exact hl
    rw [List.singleton_append, bucle_cons n _ _ _ hc]
    have h49 : (0 : Int) + ((49 : Nat) : Int) = 49 := by decide
    rw [h49, cuerpo_timeout_limite n s w _ (hto _ (List.getLast_mem hne)) hs]
  · intro k hk
    have hlenk : (ts.take k).length = k := by simp [hts]; omega
    have h := bucle_timeouts n s w hl (ts.take k) []
      (fun x hx => hto x (List.mem_of_mem_take hx)) 0 (le_refl _) (by rw [hlenk]; omega)
    rw [List.append_nil, hlenk, zero_add] at h
    rw [h, bucle_est_nil n s k w hl]


theorem bucle_cero_vacio (n : Int) (hn : 2 ≤ n) (w : List Int) (rest : List Lectura) :
    bucle n (est n [] 0 w) (List.replicate 50 .cero ++ rest) = ⟨.salio, est n [] 50 w, rest⟩ := by
  have hl : (([] : List Char).length : Int) < n - 1 := by
    simp only [List.length_nil, Nat.cast_zero]; omega
  have hsplit : List.replicate 50 Lectura.cero ++ rest =
      List.replicate 49 Lectura.cero ++ (.cero :: rest) := by
    rw [show (50 : Nat) = 49 + 1 from rfl, List.replicate_succ', List.append_assoc]
    rfl
  rw [hsplit, bucle_timeouts n [] w hl (List.replicate 49 .cero) _
    (fun x hx => by rw [List.eq_of_mem_replicate hx]; rfl) 0 (le_refl _)
    (by rw [List.length_replicate]; decide)]
  have hc : condicion n (est n [] (0 + ((List.replicate 49 Lectura.cero).length : Int)) w) = true := by
    simp only [condicion_est, decide_eq_true_eq]; exact hl
  rw [bucle_cons n _ _ _ hc]
  have h49 : (0 : Int) + ((List.replicate 49 Lectura.cero).length : Int) = 49 := by
    rw [List.length_replicate]; decide
  rw [h49, cuerpo_cero_limite_vacio]


theorem limpiar_campos (l : List Nat) (e : Estado) :
    (l.foldl (fun st (i : Nat) => escribir st (Int.ofNat i) NUL) e).indice = e.indice ∧
    (l.foldl (fun st (i : Nat) => escribir st (Int.ofNat i) NUL) e).finDeLinea = e.finDeLinea ∧
    (l.foldl (fun st (i : Nat) => escribir st (Int.ofNat i) NUL) e).timeoutsConsecutivos =
      e.timeoutsConsecutivos := by
  induction l generalizing e with
  | nil => simp
  | cons a l ih =>
    rw [List.foldl_cons]
    obtain ⟨h1, h2, h3⟩ := ih (escribir e (Int.ofNat a) NUL)
    exact ⟨h1, h2, h3⟩

theorem inicial_campos (buffer : List Char) (n : Int) :
    (inicial buffer n).indice = 0 ∧ (inicial buffer n).finDeLinea = false ∧
      (inicial buffer n).timeoutsConsecutivos = 0 :=
  limpiar_campos _ _

theorem bucle_timeouts_indice (n : Int) (ts : List Lectura)
    (hto : ∀ x ∈ ts, esTimeout x = true) (e : Estado) :
    (bucle n e ts).estado.indice = e.indice := by
  induction ts generalizing e with
  | nil => unfold bucle; split <;> rfl
  | cons x xs ih =>
    cases hc : condicion n e
    · rw [bucle_sin_condicion n e _ hc]
    · rw [bucle_cons n e x xs hc]
      have hx : ∀ c, x ≠ .byte c := by
        intro c hxc
        have := hto x (List.mem_cons_self _ _)
        rw [hxc] at this
        simp [esTimeout] at this
      have h1 := (cuerpo_no_byte e x hx).2.1
      cases hp : cuerpo e x with
      | continuar e1 =>
        rw [hp] at h1
        simp only [Paso.estado] at h1
        rw [ih (fun y hy => hto y (List.mem_cons_of_mem _ hy)) e1, h1]
      | romper e1 =>
        rw [hp] at h1
        exact h1


theorem wrapInt_rango (x : Int) : -2147483648 ≤ wrapInt x ∧ wrapInt x < 2147483648 := by
  unfold wrapInt; omega

theorem cuenta_rango (l : List Lectura) (t : Int)
    (ht : -2147483648 ≤ t ∧ t < 2147483648) :
    -2147483648 ≤ cuenta t l ∧ cuenta t l < 2147483648 := by
  induction l generalizing t with
  | nil => exact ht
  | cons x xs ih =>
    cases x with
    | byte c => exact ih 0 (by omega)
    | cero => exact ih _ (wrapInt_rango _)
    | eagain => exact ih _ (wrapInt_rango _)
    | error => exact ih 0 (by omega)

theorem cuenta_append_error (pre : List Lectura) (t : Int) :
    cuenta t (pre ++ [.error]) = 0 := by
  induction pre generalizing t with
  | nil => rfl
  | cons x xs ih => cases x <;> simp [cuenta, ih]

theorem cuenta_append_timeout (pre : List Lectura) (x : Lectura) (hx : esTimeout x = true)
    (t : Int) : cuenta t (pre ++ [x]) = wrapInt (cuenta t pre + 1) := by
  induction pre generalizing t with
  | nil => cases x <;> simp [esTimeout] at hx <;> rfl
  | cons y ys ih => cases y <;> simp [cuenta, ih]

/-- A counter value of at least `m` means the script ends with `m` timeouts. -/
theorem cola_de_cuenta (l : List Lectura) :
    ∀ m : Nat, (m : Int) ≤ cuenta 0 l →
      ∃ l0 ts, l = l0 ++ ts ∧ ts.length = m ∧ ∀ y ∈ ts, esTimeout y = true := by
  induction l using List.reverseRecOn with
  | nil =>
    intro m hm
    simp only [cuenta] at hm
    exact ⟨[], [], rfl, by simp; omega, by simp⟩
  | append_singleton q y ih =>
    intro m hm
    by_cases hy : esTimeout y = true
    · rw [cuenta_append_timeout q y hy] at hm
      cases m with
      | zero => exact ⟨q ++ [y], [], by simp, rfl, by simp⟩
      | succ k =>
        have hr := cuenta_rango q 0 (by omega)
        have hk : (k : Int) ≤ cuenta 0 q := by
          simp only [Nat.cast_add, Nat.cast_one] at hm
          unfold wrapInt at hm
          omega
        obtain ⟨l0, ts, hq, hlen, hall⟩ := ih k hk
        refine ⟨l0, ts ++ [y], by rw [hq, List.append_assoc], by simp [hlen], ?_⟩
        intro z hz
        rcases List.mem_append.1 hz with h | h
        · exact hall z h
        · simp only [List.mem_singleton] at h
          rw [h]; exact hy
    · have h0 : cuenta 0 (q ++ [y]) = 0 := by
        cases y with
        | byte c => exact cuenta_append_byte q c 0
        | cero => simp [esTimeout] at hy
        | eagain => simp [esTimeout] at hy
        | error => exact cuenta_append_error q 0
      rw [h0] at hm
      exact ⟨q ++ [y], [], by simp, by simp; omega, by simp⟩

/-- C1: for every `bufferSize ≥ 1` and every script of `read` outcomes, each store made
by the loop lands at an index in `[0, bufferSize - 1]`, `indice` stays in that range, and
when `leerLinea` returns, all its stores (the closing terminator included) are in range,
the buffer still has `bufferSize` cells, it holds a content of at most `bufferSize - 1`
bytes followed by terminators, and its C string has at most `bufferSize - 1` characters. -/
theorem leerLinea_acotada (bufferSize : Int) (hmax : 1 ≤ bufferSize) (buffer : List Char)
    (hlen : buffer.length = bufferSize.toNat) (fuente : List Lectura) :
    (∀ i ∈ (bucle bufferSize (inicial buffer bufferSize) fuente).estado.escrituras,
        0 ≤ i ∧ i ≤ bufferSize - 1) ∧
    (0 ≤ (bucle bufferSize (inicial buffer bufferSize) fuente).estado.indice ∧
      (bucle bufferSize (inicial buffer bufferSize) fuente).estado.indice ≤ bufferSize - 1) ∧
    ∀ r, leerLinea true buffer bufferSize fuente = some r →
      (∀ i ∈ r.escrituras, 0 ≤ i ∧ i ≤ bufferSize - 1) ∧
      r.buffer.length = bufferSize.toNat ∧
      ((linea r.buffer).length : Int) ≤ bufferSize - 1 ∧
      ∃ s : List Char, r.buffer = lleno bufferSize s ∧ (s.length : Int) ≤ bufferSize - 1 := by
  have ha := bucle_acotado bufferSize fuente _ (inicial_acotado buffer bufferSize hmax hlen)
  refine ⟨?_, ?_, ?_⟩
  · obtain ⟨s, _, _, _, hw⟩ := ha
    exact hw
  · obtain ⟨s, _, hi, hs, _⟩ := ha
    rw [hi]
    exact ⟨Int.ofNat_nonneg _, hs⟩
  · intro r hr
    simp only [leerLinea, Bool.not_true, Bool.false_eq_true, if_false] at hr
    generalize hb : bucle bufferSize (inicial buffer bufferSize) fuente = c at hr ha
    obtain ⟨fase, e, resto⟩ := c
    cases fase with
    | leyendo => simp at hr
    | salio =>
      simp only [Option.some.injEq] at hr
      obtain ⟨s, hs, hcer⟩ := cerrar_acotado bufferSize e resto ha
      obtain ⟨_, _, _, _, hw⟩ := ha
      rw [hcer] at hr
      subst hr
      refine ⟨?_, lleno_length bufferSize s (by omega), ?_, s, rfl, hs⟩
      · intro i hi
        rcases List.mem_append.1 hi with h | h
        · exact hw i h
        · simp only [List.mem_singleton] at h
          subst h
          omega
      · have := linea_lleno_le bufferSize s
        simp only
        omega

theorem leerLinea_acotada_witness :
    (∀ i ∈ (bucle 3 (inicial ['x', 'y', 'z'] 3) (bytes ['a', 'b', 'c'])).estado.escrituras,
        0 ≤ i ∧ i ≤ (3 : Int) - 1) ∧
    (0 ≤ (bucle 3 (inicial ['x', 'y', 'z'] 3) (bytes ['a', 'b', 'c'])).estado.indice ∧
      (bucle 3 (inicial ['x', 'y', 'z'] 3) (bytes ['a', 'b', 'c'])).estado.indice ≤ (3 : Int) - 1) ∧
    ∀ r, leerLinea true ['x', 'y', 'z'] 3 (bytes ['a', 'b', 'c']) = some r →
      (∀ i ∈ r.escrituras, 0 ≤ i ∧ i ≤ (3 : Int) - 1) ∧
      r.buffer.length = (3 : Int).toNat ∧
      ((linea r.buffer).length : Int) ≤ (3 : Int) - 1 ∧
      ∃ s : List Char, r.buffer = lleno 3 s ∧ (s.length : Int) ≤ (3 : Int) - 1 :=
  leerLinea_acotada 3 (by decide) ['x', 'y', 'z'] (by decide) (bytes ['a', 'b', 'c'])


/-- C2: for non-empty `s1`, `s2` without carriage return or line feed and of length at
most `bufferSize - 1`, on a connected source delivering `s1 ++ "\r\n" ++ s2 ++ "\n"`, a
first call of `leerLinea` returns true with `s1` in the buffer and a second call, on what
the first left unread, returns true with `s2` in the buffer. -/
theorem dos_lineas_en_orden (bufferSize : Int) (buffer : List Char)
    (hlen : buffer.length = bufferSize.toNat) (s1 s2 : List Char) (rest : List Lectura)
    (h1 : s1 ≠ []) (h2 : s2 ≠ [])
    (hc1 : ∀ c ∈ s1, esContenido c = true) (hc2 : ∀ c ∈ s2, esContenido c = true)
    (hl1 : (s1.length : Int) ≤ bufferSize - 1) (hl2 : (s2.length : Int) ≤ bufferSize - 1) :
    ∃ r1 r2,
      leerLinea true buffer bufferSize
        (bytes (s1 ++ ['\r', '\n'] ++ s2 ++ ['\n']) ++ rest) = some r1 ∧
      r1.ok = true ∧ r1.buffer = lleno bufferSize s1 ∧
      leerLinea true r1.buffer bufferSize r1.resto = some r2 ∧
      r2.ok = true ∧ r2.buffer = lleno bufferSize s2 ∧
      ((∀ c ∈ s1, c ≠ NUL) → linea r1.buffer = s1) ∧
      ((∀ c ∈ s2, c ≠ NUL) → linea r2.buffer = s2) := by
  have hsrc : bytes (s1 ++ ['\r', '\n'] ++ s2 ++ ['\n']) ++ rest =
      bytes [] ++ (bytes s1 ++ (bytes ['\r'] ++
        .byte '\n' :: (bytes s2 ++ .byte '\n' :: rest))) := by
    simp [bytes]
  obtain ⟨r1, hr1, hok1, hbuf1, hresto1⟩ := leerLinea_linea buffer bufferSize hlen [] s1 ['\r']
    (bytes s2 ++ .byte '\n' :: rest) (by simp) (by simp) h1 hc1 hl1
  have hlen1 : r1.buffer.length = bufferSize.toNat := by
    rw [hbuf1]; exact lleno_length bufferSize s1 (by omega)
  have hsegunda : ∃ r2, leerLinea true r1.buffer bufferSize r1.resto = some r2 ∧
      r2.ok = true ∧ r2.buffer = lleno bufferSize s2 := by
    rcases hresto1 with h | h
    · obtain ⟨r2, hr2, hok2, hbuf2, _⟩ := leerLinea_linea r1.buffer bufferSize hlen1 [] s2 []
        rest (by simp) (by simp) h2 hc2 hl2
      exact ⟨r2, by rw [h]; simpa [bytes] using hr2, hok2, hbuf2⟩
    · obtain ⟨r2, hr2, hok2, hbuf2, _⟩ := leerLinea_linea r1.buffer bufferSize hlen1
        ['\r', '\n'] s2 [] rest (by simp) (by simp) h2 hc2 hl2
      exact ⟨r2, by rw [h]; simpa [bytes] using hr2, hok2, hbuf2⟩
  obtain ⟨r2, hr2, hok2, hbuf2⟩ := hsegunda
  refine ⟨r1, r2, by rw [hsrc]; exact hr1, hok1, hbuf1, hr2, hok2, hbuf2, ?_, ?_⟩
  · intro hn; rw [hbuf1]; exact linea_lleno bufferSize s1 hn
  · intro hn; rw [hbuf2]; exact linea_lleno bufferSize s2 hn

theorem dos_lineas_en_orden_witness :
    ∃ r1 r2,
      leerLinea true ['x', 'y', 'z'] 3
        (bytes (['A'] ++ ['\r', '\n'] ++ ['B'] ++ ['\n']) ++ []) = some r1 ∧
      r1.ok = true ∧ r1.buffer = lleno 3 ['A'] ∧
      leerLinea true r1.buffer 3 r1.resto = some r2 ∧
      r2.ok = true ∧ r2.buffer = lleno 3 ['B'] ∧
      ((∀ c ∈ ['A'], c ≠ NUL) → linea r1.buffer = ['A']) ∧
      ((∀ c ∈ ['B'], c ≠ NUL) → linea r2.buffer = ['B']) :=
  dos_lineas_en_orden 3 ['x', 'y', 'z'] (by decide) ['A'] ['B'] [] (by decide) (by decide)
    (by decide) (by decide) (by decide) (by decide)


/-- C3: when a call of `leerLinea` on a connected source is still reading after a script
whose last outcome is a byte, has buffered the non-empty content `s`, and the source then
reports fifty outcomes that are all timeouts (`read` returning 0, or failing with
`EAGAIN`/`EWOULDBLOCK`), the call returns true with exactly `s` in the buffer, having
consumed nothing after the fiftieth timeout; with fewer than fifty timeouts it has not
returned. -/
theorem timeout_cierra_linea (bufferSize : Int) (buffer : List Char)
    (hlen : buffer.length = bufferSize.toNat) (pre : List Lectura) (c : Char) (s : List Char)
    (ts rest : List Lectura)
    (hley : (bucle bufferSize (inicial buffer bufferSize) (pre ++ [.byte c])).fase = .leyendo)
    (hs : contenidoDe (pre ++ [.byte c]) = s) (hne : s ≠ [])
    (hts : ts.length = 50) (hto : ∀ x ∈ ts, esTimeout x = true) :
    (s.length : Int) < bufferSize - 1 ∧
    (∃ w, leerLinea true buffer bufferSize (pre ++ [.byte c] ++ ts ++ rest) =
      some ⟨true, lleno bufferSize s, w, rest⟩) ∧
    (∀ k, k < 50 →
      leerLinea true buffer bufferSize (pre ++ [.byte c] ++ ts.take k) = none) ∧
    ((∀ d ∈ s, d ≠ NUL) → linea (lleno bufferSize s) = s) := by
  rw [inicial_eq buffer bufferSize hlen] at hley
  obtain ⟨hl, w1, hw1⟩ := bucle_leyendo bufferSize _ [] 0 _ hley
  rw [cuenta_append_byte, List.nil_append, hs] at hw1
  rw [List.nil_append, hs] at hl
  obtain ⟨h50, hmenos⟩ := bucle_cincuenta bufferSize s w1 hne hl ts rest hts hto
  refine ⟨hl, ⟨w1 ++ [(s.length : Int)], ?_⟩, ?_, linea_lleno bufferSize s⟩
  · have := leerLinea_de_bucle buffer bufferSize hlen (pre ++ [.byte c] ++ ts ++ rest) rest s
      true 50 w1 (by omega)
      (by rw [List.append_assoc, bucle_sigue bufferSize _ _ _ _ hw1, h50]; rfl)
    simpa [hne] using this
  · intro k hk
    apply leerLinea_leyendo
    rw [inicial_eq buffer bufferSize hlen, bucle_sigue bufferSize _ _ _ _ hw1, hmenos k hk]

theorem timeout_cierra_linea_witness :
    ((['A', 'B'] : List Char).length : Int) < 4 - 1 ∧
    (∃ w, leerLinea true ['x', 'y', 'z', 'w'] 4
      ([.byte 'A'] ++ [.byte 'B'] ++ List.replicate 50 .eagain ++ [.byte 'C']) =
      some ⟨true, lleno 4 ['A', 'B'], w, [.byte 'C']⟩) ∧
    (∀ k, k < 50 →
      leerLinea true ['x', 'y', 'z', 'w'] 4
        ([.byte 'A'] ++ [.byte 'B'] ++ (List.replicate 50 Lectura.eagain).take k) = none) ∧
    ((∀ d ∈ ['A', 'B'], d ≠ NUL) → linea (lleno 4 ['A', 'B']) = ['A', 'B']) :=
  timeout_cierra_linea 4 ['x', 'y', 'z', 'w'] (by decide) [.byte 'A'] 'B' ['A', 'B']
    (List.replicate 50 .eagain) [.byte 'C'] (by decide) (by decide) (by decide) (by decide)
    (by decide)


/-- C4: on a connected source, with `bufferSize ≥ 2` and nothing buffered, fifty `read`
calls returning 0 make `leerLinea` return false with an empty buffer at the fiftieth, but
when the silent source answers `EAGAIN`/`EWOULDBLOCK` the call has not returned after any
number of polls. -/
theorem silencio_eagain_no_retorna (bufferSize : Int) (h2 : 2 ≤ bufferSize)
    (buffer : List Char) (hlen : buffer.length = bufferSize.toNat) :
    (∀ k, leerLinea true buffer bufferSize (List.replicate k .eagain) = none) ∧
    (∀ rest, ∃ w, leerLinea true buffer bufferSize (List.replicate 50 .cero ++ rest) =
      some ⟨false, List.replicate bufferSize.toNat NUL, w, rest⟩) := by
  constructor
  · intro k
    apply leerLinea_leyendo
    rw [inicial_eq buffer bufferSize hlen]
    obtain ⟨t1, h⟩ := bucle_eagain_vacio bufferSize h2 k 0 (rango bufferSize)
    rw [h]
  · intro rest
    have := leerLinea_de_bucle buffer bufferSize hlen (List.replicate 50 .cero ++ rest) rest []
      false 50 (rango bufferSize) (by simp only [List.length_nil, Nat.cast_zero]; omega)
      (bucle_cero_vacio bufferSize h2 _ rest)
    exact ⟨_, by simpa [lleno] using this⟩

theorem silencio_eagain_no_retorna_witness :
    (∀ k, leerLinea true ['x', 'y'] 2 (List.replicate k .eagain) = none) ∧
    (∀ rest, ∃ w, leerLinea true ['x', 'y'] 2 (List.replicate 50 .cero ++ rest) =
      some ⟨false, List.replicate (2 : Int).toNat NUL, w, rest⟩) :=
  silencio_eagain_no_retorna 2 (by decide) ['x', 'y'] (by decide)

/-- C5, counterexample: with `'A'` buffered, a hard `read` error makes `leerLinea` return
true with `'A'` still in the buffer. -/
theorem error_conserva_parcial :
    leerLinea true ['x', 'y', 'z'] 3 [.byte 'A', .error, .byte 'B'] =
      some ⟨true, ['A', NUL, NUL], [0, 1, 2, 0, 1], [.byte 'B']⟩ := by
  decide

/-- C5, amended: when a call of `leerLinea` on a connected source is still reading after
the script `pre` and the next `read` fails with a hard error, the call returns at once,
consuming nothing further; the buffer holds the content bytes delivered by `pre`, and the
returned flag is true exactly when that content is non-empty (false with an empty buffer
when nothing was buffered). -/
theorem error_aborta (bufferSize : Int) (buffer : List Char)
    (hlen : buffer.length = bufferSize.toNat) (pre rest : List Lectura)
    (hley : (bucle bufferSize (inicial buffer bufferSize) pre).fase = .leyendo) :
    ∃ w, leerLinea true buffer bufferSize (pre ++ .error :: rest) =
      some ⟨decide (contenidoDe pre ≠ []), lleno bufferSize (contenidoDe pre), w, rest⟩ := by
  rw [inicial_eq buffer bufferSize hlen] at hley
  obtain ⟨hl, w1, hw1⟩ := bucle_leyendo bufferSize _ [] 0 _ hley
  rw [List.nil_append] at hw1 hl
  have hc : condicion bufferSize (est bufferSize (contenidoDe pre) (cuenta 0 pre) w1) = true := by
    simp only [condicion_est, decide_eq_true_eq]; exact hl
  exact ⟨_, leerLinea_de_bucle buffer bufferSize hlen _ rest (contenidoDe pre) false
    (cuenta 0 pre) w1 (by omega)
    (by rw [bucle_sigue bufferSize _ _ _ _ hw1, bucle_cons bufferSize _ _ _ hc]; rfl)⟩

theorem error_aborta_witness :
    (∃ w, leerLinea true ['x', 'y', 'z'] 3 ([.cero, .byte 'A'] ++ .error :: [.byte 'B']) =
      some ⟨decide (contenidoDe [.cero, .byte 'A'] ≠ []),
        lleno 3 (contenidoDe [.cero, .byte 'A']), w, [.byte 'B']⟩) ∧
    (∃ w, leerLinea true ['x', 'y', 'z'] 3 ([.cero, .byte '\r'] ++ .error :: [.byte 'B']) =
      some ⟨false, [NUL, NUL, NUL], w, [.byte 'B']⟩) :=
  ⟨error_aborta 3 ['x', 'y', 'z'] (by decide) [.cero, .byte 'A'] [.byte 'B'] (by decide),
   error_aborta 3 ['x', 'y', 'z'] (by decide) [.cero, .byte '\r'] [.byte 'B'] (by decide)⟩


/-- C6: on a connected source with `bufferSize ≥ 2`, a prefix made only of carriage
returns and line feeds changes nothing: `leerLinea` on `p ++ rest` gives the result it
gives on `rest`.  A stream that is just `"\r\n"` followed by timeouts never yields a line:
whenever the call returns, it returns false, and after fifty `read` calls returning 0 it
does return false with an empty buffer. -/
theorem prefijo_descartado (bufferSize : Int) (h2 : 2 ≤ bufferSize) (buffer : List Char)
    (p : List Char) (hp : ∀ c ∈ p, c = '\r' ∨ c = '\n') :
    (∀ rest, leerLinea true buffer bufferSize (bytes p ++ rest) =
      leerLinea true buffer bufferSize rest) ∧
    (∀ ts, (∀ x ∈ ts, esTimeout x = true) → ∀ r,
      leerLinea true buffer bufferSize (bytes ['\r', '\n'] ++ ts) = some r → r.ok = false) ∧
    (buffer.length = bufferSize.toNat → ∀ rest, ∃ w,
      leerLinea true buffer bufferSize (bytes ['\r', '\n'] ++ (List.replicate 50 .cero ++ rest)) =
        some ⟨false, List.replicate bufferSize.toNat NUL, w, rest⟩) := by
  obtain ⟨hi, hf, ht⟩ := inicial_campos buffer bufferSize
  have hc : condicion bufferSize (inicial buffer bufferSize) = true := by
    simp only [condicion, hi, hf, Bool.not_false, Bool.and_true, decide_eq_true_eq]; omega
  have hpre : ∀ (q : List Char), (∀ c ∈ q, c = '\r' ∨ c = '\n') → ∀ rest,
      leerLinea true buffer bufferSize (bytes q ++ rest) =
        leerLinea true buffer bufferSize rest := by
    intro q hq rest
    simp only [leerLinea, Bool.not_true, Bool.false_eq_true, if_false]
    rw [bucle_descartados bufferSize _ hc ht q
      (fun c hcq => (hq c hcq).imp id (fun h => ⟨h, by rw [hi]⟩))]
  refine ⟨hpre p hp, ?_, ?_⟩
  · intro ts hto r hr
    rw [hpre ['\r', '\n'] (by simp)] at hr
    simp only [leerLinea, Bool.not_true, Bool.false_eq_true, if_false] at hr
    have hind := bucle_timeouts_indice bufferSize ts hto (inicial buffer bufferSize)
    generalize bucle bufferSize (inicial buffer bufferSize) ts = c at hr hind
    obtain ⟨fase, e, resto⟩ := c
    cases fase with
    | leyendo => simp at hr
    | salio =>
      simp only [Option.some.injEq] at hr
      simp only [hi] at hind
      subst hr
      simp [cerrar, escribir, hind]
  · intro hlen rest
    rw [hpre ['\r', '\n'] (by simp)]
    have := leerLinea_de_bucle buffer bufferSize hlen (List.replicate 50 .cero ++ rest) rest []
      false 50 (rango bufferSize) (by simp only [List.length_nil, Nat.cast_zero]; omega)
      (bucle_cero_vacio bufferSize h2 _ rest)
    exact ⟨_, by simpa [lleno] using this⟩

theorem prefijo_descartado_witness :
    (∀ rest, leerLinea true ['x', 'y', 'z'] 3 (bytes ['\r', '\n', '\n', '\r'] ++ rest) =
      leerLinea true ['x', 'y', 'z'] 3 rest) ∧
    (∀ ts, (∀ x ∈ ts, esTimeout x = true) → ∀ r,
      leerLinea true ['x', 'y', 'z'] 3 (bytes ['\r', '\n'] ++ ts) = some r → r.ok = false) ∧
    (['x', 'y', 'z'].length = (3 : Int).toNat → ∀ rest, ∃ w,
      leerLinea true ['x', 'y', 'z'] 3
          (bytes ['\r', '\n'] ++ (List.replicate 50 .cero ++ rest)) =
        some ⟨false, List.replicate (3 : Int).toNat NUL, w, rest⟩) :=
  prefijo_descartado 3 (by decide) ['x', 'y', 'z'] ['\r', '\n', '\n', '\r'] (by decide)

/-- When the first `bufferSize - 1` outcomes of `read` are content bytes, the call returns
them, leaves the rest unread, and has not returned on any shorter part of them. -/
theorem bucle_lleno_seguido (bufferSize : Int) (h2 : 2 ≤ bufferSize) (buffer : List Char)
    (hlen : buffer.length = bufferSize.toNat) (s : List Char) (rest : List Lectura)
    (hcs : ∀ c ∈ s, esContenido c = true) (hl : (s.length : Int) = bufferSize - 1) :
    (∃ w, leerLinea true buffer bufferSize (bytes s ++ rest) =
      some ⟨true, s ++ [NUL], w, rest⟩) ∧
    (∀ k, k < s.length → leerLinea true buffer bufferSize (bytes (s.take k)) = none) ∧
    ((∀ c ∈ s, c ≠ NUL) → linea (s ++ [NUL]) = s) := by
  have hne : s ≠ [] := by
    intro h; rw [h] at hl; simp only [List.length_nil, Nat.cast_zero] at hl; omega
  have hlleno : lleno bufferSize s = s ++ [NUL] := by
    unfold lleno
    have : bufferSize.toNat - s.length = 1 := by omega
    rw [this]; rfl
  refine ⟨?_, ?_, ?_⟩
  · obtain ⟨w1, hw1⟩ := bucle_contenidos bufferSize s rest hcs [] 0 (rango bufferSize)
      (by simp only [List.length_nil, Nat.cast_zero]; omega)
    simp only [List.nil_append, hne, if_false] at hw1
    have hc : condicion bufferSize (est bufferSize s 0 w1) = false := by
      simp only [condicion_est, decide_eq_false_iff_not]; omega
    rw [bucle_sin_condicion bufferSize _ _ hc] at hw1
    have := leerLinea_de_bucle buffer bufferSize hlen (bytes s ++ rest) rest s false 0 w1
      (by omega) hw1
    exact ⟨_, by simpa [hne, hlleno] using this⟩
  · intro k hk
    apply leerLinea_leyendo
    rw [inicial_eq buffer bufferSize hlen]
    have hlk : (s.take k).length = k := by simp; omega
    obtain ⟨w1, hw1⟩ := bucle_contenidos bufferSize (s.take k) []
      (fun c hc => hcs c (List.mem_of_mem_take hc)) [] 0 (rango bufferSize)
      (by rw [hlk]; simp only [List.length_nil, Nat.cast_zero]; omega)
    rw [List.append_nil, List.nil_append] at hw1
    rw [hw1, bucle_est_nil bufferSize _ _ _ (by rw [hlk]; omega)]
  · intro hn
    rw [← hlleno]
    exact linea_lleno bufferSize s hn

/-- C10: every byte read, stored or discarded, sets the consecutive-timeout counter of
`leerLinea` to zero; a timeout can only make a call on a connected source leave the loop
when it is the last of fifty timeouts in a row; and content, 49 timeouts, a discarded byte
(a carriage return, or a line feed while nothing is buffered), 49 timeouts, more content
and a line feed are returned as one line holding all the content. -/
theorem contador_reinicia (bufferSize : Int) (buffer : List Char)
    (hlen : buffer.length = bufferSize.toNat) (s1 s2 : List Char) (d : Char)
    (ts1 ts2 rest : List Lectura)
    (hc1 : ∀ c ∈ s1, esContenido c = true) (hc2 : ∀ c ∈ s2, esContenido c = true)
    (hd : d = '\r' ∨ (d = '\n' ∧ s1 = [])) (hne : s1 ++ s2 ≠ [])
    (hl : (s1.length : Int) + s2.length < bufferSize - 1)
    (hts1 : ts1.length = 49) (hts2 : ts2.length = 49)
    (hto1 : ∀ x ∈ ts1, esTimeout x = true) (hto2 : ∀ x ∈ ts2, esTimeout x = true) :
    (∀ e c, ∃ e1, cuerpo e (.byte c) = .continuar e1 ∧ e1.timeoutsConsecutivos = 0) ∧
    (∀ pre x, esTimeout x = true →
      (bucle bufferSize (inicial buffer bufferSize) pre).fase = .leyendo →
      (bucle bufferSize (inicial buffer bufferSize) (pre ++ [x])).fase = .salio →
      ∃ pre0 ts, pre ++ [x] = pre0 ++ ts ∧ ts.length = 50 ∧ ∀ y ∈ ts, esTimeout y = true) ∧
    (∃ w, leerLinea true buffer bufferSize
        (bytes s1 ++ (ts1 ++ (.byte d :: (ts2 ++ (bytes s2 ++ .byte '\n' :: rest))))) =
      some ⟨true, lleno bufferSize (s1 ++ s2), w, rest⟩) := by
  refine ⟨?_, ?_, ?_⟩
  · intro e c
    simp only [cuerpo]
    split
    · exact ⟨_, rfl, rfl⟩
    · split
      · split <;> exact ⟨_, rfl, rfl⟩
      · exact ⟨_, rfl, rfl⟩
  · intro pre x hx hley hsal
    rw [inicial_eq buffer bufferSize hlen] at hley hsal
    obtain ⟨hlt, w1, hw1⟩ := bucle_leyendo bufferSize _ [] 0 _ hley
    rw [List.nil_append] at hw1 hlt
    have hc : condicion bufferSize (est bufferSize (contenidoDe pre) (cuenta 0 pre) w1) = true := by
      simp only [condicion_est, decide_eq_true_eq]; exact hlt
    rw [bucle_sigue bufferSize _ _ _ _ hw1, bucle_cons bufferSize _ _ _ hc] at hsal
    rcases cuerpo_timeout_forma bufferSize (contenidoDe pre) (cuenta 0 pre) w1 x hx with
      h1 | ⟨h50, _⟩
    · rw [h1] at hsal
      simp only at hsal
      rw [bucle_est_nil bufferSize _ _ _ hlt] at hsal
      simp at hsal
    · apply cola_de_cuenta (pre ++ [x]) 50
      rw [cuenta_append_timeout pre x hx]
      exact h50
  · have hl1 : (s1.length : Int) < bufferSize - 1 := by omega
    have hc1' : ∀ w, condicion bufferSize (est bufferSize s1 49 w) = true := by
      intro w; simp only [condicion_est, decide_eq_true_eq]; exact hl1
    obtain ⟨w1, hw1⟩ := bucle_contenidos bufferSize s1
      (ts1 ++ (.byte d :: (ts2 ++ (bytes s2 ++ .byte '\n' :: rest)))) hc1 [] 0
      (rango bufferSize) (by simp only [List.length_nil, Nat.cast_zero]; omega)
    simp only [List.nil_append, ite_self] at hw1
    have h49a : (0 : Int) + (ts1.length : Int) = 49 := by rw [hts1]; decide
    have h49b : (0 : Int) + (ts2.length : Int) = 49 := by rw [hts2]; decide
    have hpaso : cuerpo (est bufferSize s1 49 w1) (.byte d) =
        .continuar (est bufferSize s1 0 w1) := by
      rcases hd with rfl | ⟨rfl, hs1⟩
      · exact cuerpo_cr bufferSize s1 49 w1
      · rw [cuerpo_lf, if_pos hs1]
    obtain ⟨w2, hw2⟩ := bucle_contenidos bufferSize s2 (.byte '\n' :: rest) hc2 s1 49 w1
      (by omega)
    have hl12 : ((s1 ++ s2).length : Int) < bufferSize - 1 := by
      simp only [List.length_append, Nat.cast_add]; exact hl
    have hc2' : ∀ t, condicion bufferSize (est bufferSize (s1 ++ s2) t w2) = true := by
      intro t; simp only [condicion_est, decide_eq_true_eq]; exact hl12
    have hfin : bucle bufferSize (est bufferSize [] 0 (rango bufferSize))
        (bytes s1 ++ (ts1 ++ (.byte d :: (ts2 ++ (bytes s2 ++ .byte '\n' :: rest))))) =
        ⟨.salio, estFin bufferSize (s1 ++ s2) 0 w2, rest⟩ := by
      rw [hw1, bucle_timeouts bufferSize s1 w1 hl1 ts1 _ hto1 0 (le_refl _)
        (by rw [hts1]; decide), h49a, bucle_cons bufferSize _ _ _ (hc1' w1), hpaso]
      simp only
      rw [bucle_timeouts bufferSize s1 w1 hl1 ts2 _ hto2 0 (le_refl _)
        (by rw [hts2]; decide), h49b, hw2, bucle_cons bufferSize _ _ _ (hc2' _), cuerpo_lf,
        if_neg hne]
      simp only
      rw [bucle_sin_condicion bufferSize _ _ (condicion_estFin bufferSize _ 0 w2)]
    have := leerLinea_de_bucle buffer bufferSize hlen _ rest (s1 ++ s2) true 0 w2 (by omega) hfin
    exact ⟨_, by simpa [hne] using this⟩

theorem contador_reinicia_witness :
    (∀ e c, ∃ e1, cuerpo e (.byte c) = .continuar e1 ∧ e1.timeoutsConsecutivos = 0) ∧
    (∀ pre x, esTimeout x = true →
      (bucle 4 (inicial ['x', 'y', 'z', 'w'] 4) pre).fase = .leyendo →
      (bucle 4 (inicial ['x', 'y', 'z', 'w'] 4) (pre ++ [x])).fase = .salio →
      ∃ pre0 ts, pre ++ [x] = pre0 ++ ts ∧ ts.length = 50 ∧ ∀ y ∈ ts, esTimeout y = true) ∧
    (∃ w, leerLinea true ['x', 'y', 'z', 'w'] 4
        (bytes ['A'] ++ (List.replicate 49 .cero ++ (.byte '\r' ::
          (List.replicate 49 .eagain ++ (bytes ['B'] ++ .byte '\n' :: []))))) =
      some ⟨true, lleno 4 (['A'] ++ ['B']), w, []⟩) :=
  contador_reinicia 4 ['x', 'y', 'z', 'w'] (by decide) ['A'] ['B'] '\r'
    (List.replicate 49 .cero) (List.replicate 49 .eagain) [] (by decide) (by decide)
    (by decide) (by decide) (by decide) (by decide) (by decide) (by decide) (by decide)

end SerialPort

/-! ## Properties of frame decoding -/

theorem procesar_sin_estado {ρ : Type} (t : TramaLoad) (carga : ListaDeCarga)
    (rotor : RotorDeMapeo ρ) (h : rotor.sinEstado) :
    (t.procesar carga rotor).rotor = rotor ∧
      (t.procesar carga rotor).carga = ⟨carga.elementos ++ [rotor.mapa t.dato]⟩ := by
  obtain ⟨estado, getMapeo⟩ := rotor
  have := h estado t.dato
  simp only at this
  simp [TramaLoad.procesar, ListaDeCarga.insertarAlFinal, RotorDeMapeo.mapa, this]

/-- C8: for every initial Load Sequence `xs`, every stateless mapper and every list of
payload characters, running `TramaLoad::procesar` on the frames in order leaves the Load
Sequence equal to `xs` followed by the mapped payloads in processing order and leaves the
mapper as it was; a single frame calls `getMapeo` once, on its payload, and appends
exactly the mapped character. -/
theorem procesar_en_orden {ρ : Type} (rotor : RotorDeMapeo ρ) (h : rotor.sinEstado)
    (xs cs : List Char) :
    procesarTodas (cs.map TramaLoad.mk) ⟨xs⟩ rotor = (⟨xs ++ cs.map rotor.mapa⟩, rotor) ∧
    ∀ c, ((TramaLoad.mk c).procesar ⟨xs⟩ rotor).carga = ⟨xs ++ [rotor.mapa c]⟩ ∧
      ((TramaLoad.mk c).procesar ⟨xs⟩ rotor).rotor = rotor ∧
      ((TramaLoad.mk c).procesar ⟨xs⟩ rotor).consultas = [c] := by
  constructor
  · induction cs generalizing xs with
    | nil => simp [procesarTodas]
    | cons c cs ih =>
      obtain ⟨h1, h2⟩ := procesar_sin_estado (TramaLoad.mk c) ⟨xs⟩ rotor h
      simp only [List.map_cons, procesarTodas, h1, h2]
      rw [ih (xs ++ [rotor.mapa c])]
      simp
  · intro c
    obtain ⟨h1, h2⟩ := procesar_sin_estado (TramaLoad.mk c) ⟨xs⟩ rotor h
    exact ⟨h2, h1, rfl⟩

theorem procesar_en_orden_witness :
    procesarTodas (['a', 'b'].map TramaLoad.mk) ⟨['k']⟩ rotorEjemplo =
      (⟨['k'] ++ ['a', 'b'].map rotorEjemplo.mapa⟩, rotorEjemplo) ∧
    ∀ c, ((TramaLoad.mk c).procesar ⟨['k']⟩ rotorEjemplo).carga =
        ⟨['k'] ++ [rotorEjemplo.mapa c]⟩ ∧
      ((TramaLoad.mk c).procesar ⟨['k']⟩ rotorEjemplo).rotor = rotorEjemplo ∧
      ((TramaLoad.mk c).procesar ⟨['k']⟩ rotorEjemplo).consultas = [c] :=
  procesar_en_orden rotorEjemplo (fun _ _ => rfl) ['k'] ['a', 'b']

/-- C9: every line that does not match the tag grammar `L,<payload_char>` is rejected by
`process` with `MalformedFrame`; the mapper is not called and the Load Sequence and the
mapper are left exactly as they were. -/
theorem process_rechaza {ρ : Type} (line : List Char) (mapper : RotorDeMapeo ρ)
    (sink : ListaDeCarga) (h : payloadDe line = none) :
    (process line mapper sink).error = some .MalformedFrame ∧
    (process line mapper sink).consultas = [] ∧
    (process line mapper sink).carga = sink ∧
    (process line mapper sink).rotor = mapper := by
  simp [process, h]

theorem process_rechaza_witness :
    (process ['X', ',', 'a'] rotorEjemplo ⟨['k']⟩).error = some .MalformedFrame ∧
    (process ['X', ',', 'a'] rotorEjemplo ⟨['k']⟩).consultas = [] ∧
    (process ['X', ',', 'a'] rotorEjemplo ⟨['k']⟩).carga = ⟨['k']⟩ ∧
    (process ['X', ',', 'a'] rotorEjemplo ⟨['k']⟩).rotor = rotorEjemplo :=
  process_rechaza ['X', ',', 'a'] rotorEjemplo ⟨['k']⟩ (by decide)
